import Mathlib

/-!
Verification of the buffered cursor component (input.go) of the parse
repository.  The Go code is shallowly embedded: the byte buffer is a
`List Nat`, Go int fields are `Int`, Go slices `buf[i:j]` become
`goSlice`, `bytes.Count` becomes `countByte`, `bytes.LastIndexByte`
becomes `lastIndexByte`, and `utf8.RuneCount` becomes `runeCount`
(transcribed from the Go standard library decoding tables used by the
source).  Fallible construction (`NewInput` on a failing reader) is
modelled by `errInput`.
-/

/-- Byte at index `i` of a list, 0 when out of range (Go indexing panics
out of range; every claim that depends on an access also states the
in-bounds fact separately). -/
def byteAt : List Nat → Nat → Nat
  | [], _ => 0
  | c :: _, 0 => c
  | _ :: rest, i + 1 => byteAt rest i

/-- Model of `bytes.Count(l, []byte{b})`: number of occurrences of byte
`b` in `l`. -/
def countByte : List Nat → Nat → Nat
  | [], _ => 0
  | c :: rest, b => (if c = b then 1 else 0) + countByte rest b

/-- Model of `bytes.LastIndexByte(l, b)`: index of the last occurrence
of `b` in `l`, or -1 when absent. -/
def lastIndexByte : List Nat → Nat → Int
  | [], _ => -1
  | c :: rest, b =>
    if 0 ≤ lastIndexByte rest b then lastIndexByte rest b + 1
    else if c = b then 0 else -1

/-- Model of a Go slice expression `l[i:j]` (well-defined for
`0 ≤ i ≤ j ≤ len l`, which holds at every use backed by the source). -/
def goSlice (l : List Nat) (i j : Int) : List Nat :=
  (l.drop i.toNat).take (j - i).toNat

/-- Leading-byte classification table of the Go standard library
(`unicode/utf8.first` together with `acceptRanges`): for a multi-byte
leading byte, the sequence size and the accepted range of the first
continuation byte; `none` for bytes that cannot start a multi-byte
sequence. -/
def utf8SizeInfo (c : Nat) : Option (Nat × Nat × Nat) :=
  if c < 0xC2 then none
  else if c ≤ 0xDF then some (2, 0x80, 0xBF)
  else if c = 0xE0 then some (3, 0xA0, 0xBF)
  else if c ≤ 0xEC then some (3, 0x80, 0xBF)
  else if c = 0xED then some (3, 0x80, 0x9F)
  else if c ≤ 0xEF then some (3, 0x80, 0xBF)
  else if c = 0xF0 then some (4, 0x90, 0xBF)
  else if c ≤ 0xF3 then some (4, 0x80, 0xBF)
  else if c = 0xF4 then some (4, 0x80, 0x8F)
  else none

/-- One decoding step of `unicode/utf8.RuneCount`: the number of bytes
consumed for the sequence starting with byte `c`, given the number of
bytes remaining (`len`) and the following three bytes. -/
def runeSizeCore (len c b1 b2 b3 : Nat) : Nat :=
  if c < 0x80 then 1
  else
    match utf8SizeInfo c with
    | none => 1
    | some (s, lo, hi) =>
      if len < s then 1
      else if b1 < lo ∨ hi < b1 then 1
      else if s = 2 then 2
      else if b2 < 0x80 ∨ 0xBF < b2 then 1
      else if s = 3 then 3
      else if b3 < 0x80 ∨ 0xBF < b3 then 1
      else 4

/-- Bytes consumed by the first decoding step of `utf8.RuneCount` on
list `l`. -/
def runeSize (l : List Nat) : Nat :=
  runeSizeCore l.length (byteAt l 0) (byteAt l 1) (byteAt l 2) (byteAt l 3)

/-- Fuel-indexed rune counter (the fuel makes the recursion structural;
`runeCount` instantiates the fuel with the list length, which always
suffices since every step consumes at least one byte). -/
def runeCountFuel : Nat → List Nat → Nat
  | 0, _ => 0
  | _ + 1, [] => 0
  | fuel + 1, c :: rest => 1 + runeCountFuel fuel (rest.drop (runeSize (c :: rest) - 1))

/-- Model of `unicode/utf8.RuneCount(l)`. -/
def runeCount (l : List Nat) : Nat :=
  runeCountFuel l.length l

/-- Error values observable through `Err` and `PeekErr`: `io.EOF` or a
permanent load error (identified by an arbitrary numeric id). -/
inductive GoErr where
  | eof : GoErr
  | load : Nat → GoErr
deriving DecidableEq

/-- The `Input` struct of the source: buffer, cursor indices, error
field and the cached position-tracking state. -/
structure Input where
  buf : List Nat
  pos : Int
  start : Int
  err : Option Nat
  line : Int
  col : Int
  lastNewline : Int
deriving DecidableEq

/-- Model of `NewInputBytes` (also of `NewInputString` and of `NewInput`
on a successfully read source): the physical buffer is the logical
content followed by the NULL sentinel.  Both the capacity-reuse path and
the reallocation path of the source produce exactly this physical
content, and for empty input `nullBuffer` is this content as well. -/
def newInputBytes (b : List Nat) : Input :=
  { buf := b ++ [0], pos := 0, start := 0, err := none,
    line := 1, col := 1, lastNewline := -1 }

/-- Model of `NewInput` when reading the source fails: only the sentinel
remains, the error is recorded, and the remaining int fields keep the Go
zero value (so `lastNewline` is 0 here, not -1). -/
def errInput (e : Nat) : Input :=
  { buf := [0], pos := 0, start := 0, err := some e,
    line := 1, col := 1, lastNewline := 0 }

/-- Model of `Input.Len`. -/
def Input.Len (z : Input) : Int :=
  (z.buf.length : Int) - 1

/-- Model of `Input.PeekErr`. -/
def Input.PeekErr (z : Input) (off : Int) : Option GoErr :=
  match z.err with
  | some e => some (GoErr.load e)
  | none =>
    if (z.buf.length : Int) - 1 ≤ z.pos + off then some GoErr.eof else none

/-- Model of `Input.Err`. -/
def Input.Err (z : Input) : Option GoErr :=
  z.PeekErr 0

/-- Model of `Input.Peek`. -/
def Input.Peek (z : Input) (off : Int) : Nat :=
  byteAt z.buf (z.pos + off).toNat

/-- Model of `Input.PeekRune`.  Note that the remaining-length guards of
the source compare against `len(buf)-1-z.pos`, not against
`len(buf)-1-(z.pos+off)`. -/
def Input.PeekRune (z : Input) (off : Int) : Nat × Nat :=
  if z.Peek off < 0xC0 ∨ (z.buf.length : Int) - 1 - z.pos < 2 then
    (z.Peek off, 1)
  else if z.Peek off < 0xE0 ∨ (z.buf.length : Int) - 1 - z.pos < 3 then
    (((z.Peek off &&& 0x1F) <<< 6) ||| (z.Peek (off + 1) &&& 0x3F), 2)
  else if z.Peek off < 0xF0 ∨ (z.buf.length : Int) - 1 - z.pos < 4 then
    (((z.Peek off &&& 0x0F) <<< 12) ||| ((z.Peek (off + 1) &&& 0x3F) <<< 6) |||
      (z.Peek (off + 2) &&& 0x3F), 3)
  else
    (((z.Peek off &&& 0x07) <<< 18) ||| ((z.Peek (off + 1) &&& 0x3F) <<< 12) |||
      ((z.Peek (off + 2) &&& 0x3F) <<< 6) ||| (z.Peek (off + 3) &&& 0x3F), 4)

/-- The physical indices read by the `Peek` calls that `Input.PeekRune`
performs, branch by branch (same guards as `Input.PeekRune`). -/
def peekRuneReadIndices (z : Input) (off : Int) : List Int :=
  if z.Peek off < 0xC0 ∨ (z.buf.length : Int) - 1 - z.pos < 2 then
    [z.pos + off]
  else if z.Peek off < 0xE0 ∨ (z.buf.length : Int) - 1 - z.pos < 3 then
    [z.pos + off, z.pos + off + 1]
  else if z.Peek off < 0xF0 ∨ (z.buf.length : Int) - 1 - z.pos < 4 then
    [z.pos + off, z.pos + off + 1, z.pos + off + 2]
  else
    [z.pos + off, z.pos + off + 1, z.pos + off + 2, z.pos + off + 3]

/-- The clamped target position of `Input.Move` (the local variable
`end` of the source). -/
def moveEnd (z : Input) (n : Int) : Int :=
  if (z.buf.length : Int) - 1 < z.pos + n then (z.buf.length : Int) - 1 else z.pos + n

/-- Model of `Input.Move` (with the local variables `end`, `movedBytes`
and `newlines` of the source inlined). -/
def Input.Move (z : Input) (n : Int) : Input :=
  if n ≤ 0 then z
  else if 0 < countByte (goSlice z.buf z.pos (moveEnd z n)) 10 then
    { z with
      line := z.line + (countByte (goSlice z.buf z.pos (moveEnd z n)) 10 : Int),
      lastNewline := z.pos + lastIndexByte (goSlice z.buf z.pos (moveEnd z n)) 10,
      col := (runeCount (goSlice z.buf
        (z.pos + lastIndexByte (goSlice z.buf z.pos (moveEnd z n)) 10 + 1)
        (moveEnd z n)) : Int) + 1,
      pos := moveEnd z n }
  else
    { z with
      col := z.col + (runeCount (goSlice z.buf z.pos (moveEnd z n)) : Int),
      pos := moveEnd z n }

/-- Model of `Input.MoveRune`. -/
def Input.MoveRune (z : Input) : Input :=
  z.Move ((z.PeekRune 0).2 : Int)

/-- Model of `Input.Pos`. -/
def Input.MarkPos (z : Input) : Int :=
  z.pos - z.start

/-- Model of `Input.Rewind`. -/
def Input.Rewind (z : Input) (m : Int) : Input :=
  { z with pos := z.start + m }

/-- Model of `Input.Lexeme`. -/
def Input.Lexeme (z : Input) : List Nat :=
  goSlice z.buf z.start z.pos

/-- Model of `Input.Skip`. -/
def Input.Skip (z : Input) : Input :=
  { z with start := z.pos }

/-- Model of `Input.Offset`. -/
def Input.Offset (z : Input) : Int :=
  z.pos

/-- Model of `Input.Reset`. -/
def Input.Reset (z : Input) : Input :=
  { z with start := 0, pos := 0, line := 1, col := 1, lastNewline := -1 }

/-- Model of `Input.Position`. -/
def Input.Position (z : Input) : Int × Int :=
  (z.line, z.col)

/-- Model of `Input.PositionAt`. -/
def Input.PositionAt (z : Input) (offset : Int) : Int × Int :=
  (((countByte (z.buf.take
      (lastIndexByte (z.buf.take (if (z.buf.length : Int) < offset then
        (z.buf.length : Int) else offset).toNat) 10 + 1).toNat) 10 : Int) + 1),
   ((runeCount (goSlice z.buf
      (lastIndexByte (z.buf.take (if (z.buf.length : Int) < offset then
        (z.buf.length : Int) else offset).toNat) 10 + 1)
      (if (z.buf.length : Int) < offset then (z.buf.length : Int) else offset)) : Int) + 1))

/-! Basic lemmas about the byte-level helpers. -/

theorem byteAt_nil (i : Nat) : byteAt [] i = 0 := by
  cases i <;> rfl

theorem byteAt_drop (l : List Nat) (m i : Nat) : byteAt (l.drop m) i = byteAt l (m + i) := by
  induction m generalizing l with
  | zero => simp
  | succ m ih =>
    cases l with
    | nil => simp [byteAt_nil]
    | cons c rest =>
      have : m + 1 + i = (m + i) + 1 := by omega
      rw [this]
      simpa using ih rest

theorem byteAt_take (l : List Nat) (n i : Nat) (h : i < n) : byteAt (l.take n) i = byteAt l i := by
  induction n generalizing l i with
  | zero => omega
  | succ n ih =>
    cases l with
    | nil => simp
    | cons c rest =>
      cases i with
      | zero => rfl
      | succ i => simpa [byteAt] using ih rest i (by omega)

theorem byteAt_append_left (l1 l2 : List Nat) (i : Nat) (h : i < l1.length) :
    byteAt (l1 ++ l2) i = byteAt l1 i := by
  induction l1 generalizing i with
  | nil => simp at h
  | cons c rest ih =>
    cases i with
    | zero => rfl
    | succ i => simpa [byteAt] using ih i (by simpa using Nat.lt_of_succ_lt_succ h)

theorem byteAt_append_right (l1 l2 : List Nat) (i : Nat) :
    byteAt (l1 ++ l2) (l1.length + i) = byteAt l2 i := by
  induction l1 with
  | nil => simp
  | cons c rest ih =>
    have : rest.length + 1 + i = (rest.length + i) + 1 := by omega
    simpa [byteAt, this] using ih

theorem countByte_append (l1 l2 : List Nat) (b : Nat) :
    countByte (l1 ++ l2) b = countByte l1 b + countByte l2 b := by
  induction l1 with
  | nil => simp [countByte]
  | cons c rest ih => simp [countByte, ih]; omega

theorem lastIndexByte_ge (l : List Nat) (b : Nat) : -1 ≤ lastIndexByte l b := by
  induction l with
  | nil => simp [lastIndexByte]
  | cons c rest ih =>
    simp only [lastIndexByte]
    split
    · omega
    · split <;> omega

theorem lastIndexByte_lt_length (l : List Nat) (b : Nat) :
    lastIndexByte l b < (l.length : Int) := by
  induction l with
  | nil => simp [lastIndexByte]
  | cons c rest ih =>
    simp only [lastIndexByte, List.length_cons]
    split
    · push_cast; omega
    · split <;> (push_cast; omega)

theorem lastIndexByte_neg_iff (l : List Nat) (b : Nat) :
    lastIndexByte l b < 0 ↔ countByte l b = 0 := by
  induction l with
  | nil => simp [lastIndexByte, countByte]
  | cons c rest ih =>
    simp only [lastIndexByte, countByte]
    split
    · constructor
      · omega
      · intro h
        exfalso
        have : countByte rest b = 0 := by omega
        have := ih.mpr this
        omega
    · split
      · constructor
        · omega
        · intro h; omega
      · constructor
        · intro _
          have hr : lastIndexByte rest b < 0 := by omega
          have := ih.mp hr
          simp_all
        · intro _; omega

theorem lastIndexByte_nonneg_iff (l : List Nat) (b : Nat) :
    0 ≤ lastIndexByte l b ↔ 0 < countByte l b := by
  have h1 := lastIndexByte_neg_iff l b
  constructor
  · intro h
    by_contra hc
    have : countByte l b = 0 := by omega
    have := h1.mpr this
    omega
  · intro h
    by_contra hc
    have := h1.mp (by omega)
    omega


theorem lastIndexByte_append (l1 l2 : List Nat) (b : Nat) :
    lastIndexByte (l1 ++ l2) b =
      if 0 ≤ lastIndexByte l2 b then (l1.length : Int) + lastIndexByte l2 b
      else lastIndexByte l1 b := by
  induction l1 with
  | nil =>
    have hge := lastIndexByte_ge l2 b
    by_cases h2 : 0 ≤ lastIndexByte l2 b
    · simp [h2]
    · have hm1 : lastIndexByte l2 b = -1 := by omega
      simp [h2, hm1, lastIndexByte]
  | cons c rest ih =>
    have hstep : lastIndexByte ((c :: rest) ++ l2) b =
        if 0 ≤ lastIndexByte (rest ++ l2) b then lastIndexByte (rest ++ l2) b + 1
        else if c = b then 0 else -1 := rfl
    have hstep2 : lastIndexByte (c :: rest) b =
        if 0 ≤ lastIndexByte rest b then lastIndexByte rest b + 1
        else if c = b then 0 else -1 := rfl
    rw [hstep, hstep2, ih]
    have hger := lastIndexByte_ge rest b
    by_cases h2 : 0 ≤ lastIndexByte l2 b
    · have hpos : (0 : Int) ≤ (rest.length : Int) + lastIndexByte l2 b := by
        have : (0 : Int) ≤ (rest.length : Int) := by positivity
        omega
      simp only [h2, if_true, hpos, List.length_cons]
      push_cast
      omega
    · simp only [h2, if_false]

theorem countByte_take_lastIndexByte (l : List Nat) (b : Nat) :
    countByte (l.take (lastIndexByte l b + 1).toNat) b = countByte l b := by
  induction l with
  | nil => simp [lastIndexByte, countByte]
  | cons c rest ih =>
    have hstep : lastIndexByte (c :: rest) b =
        if 0 ≤ lastIndexByte rest b then lastIndexByte rest b + 1
        else if c = b then 0 else -1 := rfl
    rw [hstep]
    by_cases hr : 0 ≤ lastIndexByte rest b
    · simp only [hr, if_true]
      have h1 : (lastIndexByte rest b + 1 + 1).toNat = (lastIndexByte rest b + 1).toNat + 1 := by
        omega
      rw [h1, List.take_succ_cons]
      show (if c = b then 1 else 0) + countByte (rest.take (lastIndexByte rest b + 1).toNat) b =
        countByte (c :: rest) b
      rw [ih]
      rfl
    · have hc0 : countByte rest b = 0 := (lastIndexByte_neg_iff rest b).mp (by omega)
      simp only [hr, if_false]
      by_cases hcb : c = b
      · simp only [hcb, if_true]
        show countByte ((b :: rest).take ((0 : Int) + 1).toNat) b = countByte (b :: rest) b
        norm_num [List.take_succ_cons, countByte, hc0]
      · simp only [hcb, if_false]
        show countByte ((c :: rest).take ((-1 : Int) + 1).toNat) b = countByte (c :: rest) b
        norm_num [countByte, hcb, hc0]

/-! Lemmas about the rune decoder used by the column bookkeeping. -/

theorem utf8SizeInfo_bounds (c s lo hi : Nat) (h : utf8SizeInfo c = some (s, lo, hi)) :
    2 ≤ s ∧ s ≤ 4 ∧ 0x80 ≤ lo ∧ lo ≤ hi ∧ hi ≤ 0xBF := by
  unfold utf8SizeInfo at h
  split_ifs at h <;> simp_all <;> omega

theorem runeSizeCore_pos (len c b1 b2 b3 : Nat) : 1 ≤ runeSizeCore len c b1 b2 b3 := by
  unfold runeSizeCore
  by_cases hc : c < 0x80
  · simp [hc]
  · simp only [hc, if_false]
    cases hinfo : utf8SizeInfo c with
    | none => simp
    | some v =>
      obtain ⟨s, lo, hi⟩ := v
      simp only
      split_ifs <;> omega

theorem runeSizeCore_le_four (len c b1 b2 b3 : Nat) (hlen : 1 ≤ len) :
    runeSizeCore len c b1 b2 b3 ≤ 4 := by
  unfold runeSizeCore
  by_cases hc : c < 0x80
  · simp [hc]
  · simp only [hc, if_false]
    cases hinfo : utf8SizeInfo c with
    | none => simp
    | some v =>
      obtain ⟨s, lo, hi⟩ := v
      have hb := utf8SizeInfo_bounds _ _ _ _ hinfo
      simp only
      split_ifs <;> omega

theorem runeSize_pos (l : List Nat) : 1 ≤ runeSize l :=
  runeSizeCore_pos _ _ _ _ _

theorem runeSize_le_length (l : List Nat) (h : l ≠ []) : runeSize l ≤ l.length := by
  have hlen : 1 ≤ l.length := by
    cases l
    · simp at h
    · simp
  unfold runeSize runeSizeCore
  by_cases hc : byteAt l 0 < 0x80
  · simp [hc]; omega
  · simp only [hc, if_false]
    cases hinfo : utf8SizeInfo (byteAt l 0) with
    | none => simpa using hlen
    | some v =>
      obtain ⟨s, lo, hi⟩ := v
      have hb := utf8SizeInfo_bounds _ _ _ _ hinfo
      simp only
      split_ifs <;> omega

theorem runeCountFuel_congr (f1 f2 : Nat) (l : List Nat) (h1 : l.length ≤ f1)
    (h2 : l.length ≤ f2) : runeCountFuel f1 l = runeCountFuel f2 l := by
  induction f1 generalizing f2 l with
  | zero =>
    have hl : l = [] := by
      cases l
      · rfl
      · simp at h1
    subst hl
    cases f2 <;> rfl
  | succ f1 ih =>
    cases l with
    | nil => cases f2 <;> rfl
    | cons c rest =>
      cases f2 with
      | zero => simp at h2
      | succ f2 =>
        show 1 + runeCountFuel f1 (rest.drop (runeSize (c :: rest) - 1)) =
          1 + runeCountFuel f2 (rest.drop (runeSize (c :: rest) - 1))
        have hd : (rest.drop (runeSize (c :: rest) - 1)).length ≤ rest.length := by
          rw [List.length_drop]; omega
        simp only [List.length_cons] at h1 h2
        exact congrArg (HAdd.hAdd 1) (ih f2 _ (by omega) (by omega))

theorem runeCount_cons (c : Nat) (rest : List Nat) :
    runeCount (c :: rest) = 1 + runeCount (rest.drop (runeSize (c :: rest) - 1)) := by
  show runeCountFuel (c :: rest).length (c :: rest) = _
  have hstep : runeCountFuel (c :: rest).length (c :: rest) =
      1 + runeCountFuel rest.length (rest.drop (runeSize (c :: rest) - 1)) := rfl
  rw [hstep]
  congr 1
  exact runeCountFuel_congr rest.length _ _ (by rw [List.length_drop]; omega) (le_refl _)

theorem runeCount_eq_step (l : List Nat) (h : l ≠ []) :
    runeCount l = 1 + runeCount (l.drop (runeSize l)) := by
  cases l with
  | nil => simp at h
  | cons c rest =>
    rw [runeCount_cons]
    have h1 : (c :: rest).drop (runeSize (c :: rest)) = rest.drop (runeSize (c :: rest) - 1) := by
      have hp := runeSize_pos (c :: rest)
      cases hs : runeSize (c :: rest) with
      | zero => omega
      | succ k => simp [List.drop_succ_cons]
    rw [h1]

set_option maxHeartbeats 2000000 in
theorem runeSizeCore_stable (len n c b1 b1' b2 b2' b3 b3' : Nat)
    (h : runeSizeCore len c b1 b2 b3 ≤ n)
    (h1 : 1 < n → b1' = b1) (h2 : 2 < n → b2' = b2) (h3 : 3 < n → b3' = b3) :
    runeSizeCore (min n len) c b1' b2' b3' = runeSizeCore len c b1 b2 b3 := by
  unfold runeSizeCore at h ⊢
  by_cases hc : c < 0x80
  · simp [hc]
  · simp only [hc, if_false] at h ⊢
    cases hinfo : utf8SizeInfo c with
    | none => rfl
    | some v =>
      obtain ⟨s, lo, hi⟩ := v
      have hb := utf8SizeInfo_bounds _ _ _ _ hinfo
      rw [hinfo] at h
      simp only at h ⊢
      split_ifs at h ⊢ <;> omega

theorem runeSize_take (l : List Nat) (n : Nat) (h : runeSize l ≤ n) :
    runeSize (l.take n) = runeSize l := by
  have h0 : 1 ≤ runeSize l := runeSize_pos l
  have hb0 : byteAt (l.take n) 0 = byteAt l 0 := byteAt_take l n 0 (by omega)
  have H := runeSizeCore_stable l.length n (byteAt l 0) (byteAt l 1) (byteAt (l.take n) 1)
      (byteAt l 2) (byteAt (l.take n) 2) (byteAt l 3) (byteAt (l.take n) 3) h
      (fun hn => byteAt_take l n 1 hn) (fun hn => byteAt_take l n 2 hn)
      (fun hn => byteAt_take l n 3 hn)
  unfold runeSize
  rw [List.length_take, hb0]
  exact H

/-- Decoding boundaries of `runeCount`: positions in a byte list where a
decoding step of the rune counter starts (or the start of the list). -/
inductive IsBoundary : List Nat → Nat → Prop where
  | zero (l : List Nat) : IsBoundary l 0
  | step (l : List Nat) (m : Nat) (h : l ≠ [])
      (hb : IsBoundary (l.drop (runeSize l)) m) : IsBoundary l (runeSize l + m)

theorem IsBoundary.additive {l : List Nat} {m : Nat} (h : IsBoundary l m) :
    runeCount l = runeCount (l.take m) + runeCount (l.drop m) := by
  induction h with
  | zero l => simp [runeCount, runeCountFuel]
  | step l m hne hb ih =>
    have hs1 : 1 ≤ runeSize l := runeSize_pos l
    have htne : l.take (runeSize l + m) ≠ [] := by
      have hlenpos : 0 < (l.take (runeSize l + m)).length := by
        rw [List.length_take]
        have : 0 < l.length := List.length_pos.mpr hne
        omega
      exact List.ne_nil_of_length_pos hlenpos
    have hsz : runeSize (l.take (runeSize l + m)) = runeSize l :=
      runeSize_take l (runeSize l + m) (by omega)
    have h1 : runeCount l = 1 + runeCount (l.drop (runeSize l)) := runeCount_eq_step l hne
    have h2 : runeCount (l.take (runeSize l + m)) =
        1 + runeCount ((l.take (runeSize l + m)).drop (runeSize l)) := by
      rw [runeCount_eq_step _ htne, hsz]
    have ha3 : runeSize l + m - runeSize l = m := by omega
    have h3 : (l.take (runeSize l + m)).drop (runeSize l) = (l.drop (runeSize l)).take m := by
      rw [List.drop_take, ha3]
    have ha4 : runeSize l + m = m + runeSize l := by omega
    have h4 : l.drop (runeSize l + m) = (l.drop (runeSize l)).drop m := by
      rw [List.drop_drop, ha4]
    rw [h1, h2, h3, h4, ih]
    omega

theorem runeSize_cont1 (l : List Nat) (h : 2 ≤ runeSize l) :
    0x80 ≤ byteAt l 1 ∧ byteAt l 1 ≤ 0xBF := by
  unfold runeSize runeSizeCore at h
  by_cases hc : byteAt l 0 < 0x80
  · simp [hc] at h
  · simp only [hc, if_false] at h
    cases hinfo : utf8SizeInfo (byteAt l 0) with
    | none => rw [hinfo] at h; simp at h
    | some v =>
      obtain ⟨s, lo, hi⟩ := v
      have hb := utf8SizeInfo_bounds _ _ _ _ hinfo
      rw [hinfo] at h
      simp only at h
      split_ifs at h <;> omega

theorem runeSize_cont2 (l : List Nat) (h : 3 ≤ runeSize l) :
    0x80 ≤ byteAt l 2 ∧ byteAt l 2 ≤ 0xBF := by
  unfold runeSize runeSizeCore at h
  by_cases hc : byteAt l 0 < 0x80
  · simp [hc] at h
  · simp only [hc, if_false] at h
    cases hinfo : utf8SizeInfo (byteAt l 0) with
    | none => rw [hinfo] at h; simp at h
    | some v =>
      obtain ⟨s, lo, hi⟩ := v
      have hb := utf8SizeInfo_bounds _ _ _ _ hinfo
      rw [hinfo] at h
      simp only at h
      split_ifs at h <;> omega

theorem runeSize_cont3 (l : List Nat) (h : 4 ≤ runeSize l) :
    0x80 ≤ byteAt l 3 ∧ byteAt l 3 ≤ 0xBF := by
  unfold runeSize runeSizeCore at h
  by_cases hc : byteAt l 0 < 0x80
  · simp [hc] at h
  · simp only [hc, if_false] at h
    cases hinfo : utf8SizeInfo (byteAt l 0) with
    | none => rw [hinfo] at h; simp at h
    | some v =>
      obtain ⟨s, lo, hi⟩ := v
      have hb := utf8SizeInfo_bounds _ _ _ _ hinfo
      rw [hinfo] at h
      simp only at h
      split_ifs at h <;> omega

theorem notCont_isBoundary : ∀ (m : Nat) (l : List Nat), m < l.length →
    byteAt l m < 0x80 ∨ 0xBF < byteAt l m → IsBoundary l m := by
  intro m
  induction m using Nat.strong_induction_on with
  | _ m ih =>
    intro l hlt hbyte
    rcases Nat.eq_zero_or_pos m with h0 | hpos
    · subst h0
      exact IsBoundary.zero l
    · have hne : l ≠ [] := by
        intro hl
        subst hl
        simp at hlt
    -- the decoder either consumes past m (impossible: then the byte at m
    -- would be a continuation byte) or stops at or before m
      have hs1 : 1 ≤ runeSize l := runeSize_pos l
      have hs4 : runeSize l ≤ 4 := by
        have hlen1 : 1 ≤ l.length := by omega
        exact runeSizeCore_le_four _ _ _ _ _ hlen1
      by_cases hms : m < runeSize l
      · exfalso
        rcases (by omega : m = 1 ∨ m = 2 ∨ m = 3) with h | h | h
        · subst h
          have := runeSize_cont1 l (by omega)
          omega
        · subst h
          have := runeSize_cont2 l (by omega)
          omega
        · subst h
          have := runeSize_cont3 l (by omega)
          omega
      · have hrec : IsBoundary (l.drop (runeSize l)) (m - runeSize l) := by
          apply ih (m - runeSize l) (by omega)
          · rw [List.length_drop]
            omega
          · rw [byteAt_drop]
            have heq : runeSize l + (m - runeSize l) = m := by omega
            rw [heq]
            exact hbyte
        have hstep := IsBoundary.step l (m - runeSize l) hne hrec
        have heq : runeSize l + (m - runeSize l) = m := by omega
        rwa [heq] at hstep

/-! From-scratch position state (what `PositionAt` computes) and the
invariant tying it to the cached state maintained by `Move`. -/

/-- Byte offset (or -1) of the last newline strictly before offset `p`,
computed from scratch. -/
def scratchLN (buf : List Nat) (p : Nat) : Int :=
  lastIndexByte (buf.take p) 10

/-- Line number at offset `p`, computed from scratch. -/
def scratchLine (buf : List Nat) (p : Nat) : Int :=
  (countByte (buf.take (scratchLN buf p + 1).toNat) 10 : Int) + 1

/-- Column number at offset `p`, computed from scratch. -/
def scratchCol (buf : List Nat) (p : Nat) : Int :=
  (runeCount (goSlice buf (scratchLN buf p + 1) (p : Int)) : Int) + 1

/-- The cached cursor state of `z` agrees with the from-scratch position
state at offset `p`. -/
def Tracks (z : Input) (p : Nat) : Prop :=
  z.pos = (p : Int) ∧ z.lastNewline = scratchLN z.buf p ∧
    z.line = scratchLine z.buf p ∧ z.col = scratchCol z.buf p

theorem scratchLN_ge (buf : List Nat) (p : Nat) : -1 ≤ scratchLN buf p :=
  lastIndexByte_ge _ _

theorem scratchLN_lt (buf : List Nat) (p : Nat) :
    scratchLN buf p < (p : Int) ∧ scratchLN buf p < (buf.length : Int) := by
  have h := lastIndexByte_lt_length (buf.take p) 10
  rw [List.length_take] at h
  unfold scratchLN
  push_cast at h
  omega

theorem tracks_newInput (b : List Nat) : Tracks (newInputBytes b) 0 := by
  refine ⟨rfl, ?_, ?_, ?_⟩ <;>
    simp [newInputBytes, scratchLN, scratchLine, scratchCol, lastIndexByte,
      countByte, goSlice, runeCount, runeCountFuel]

theorem positionAt_eq_scratch (z : Input) (p : Nat) (h : p ≤ z.buf.length) :
    z.PositionAt (p : Int) = (scratchLine z.buf p, scratchCol z.buf p) := by
  unfold Input.PositionAt scratchLine scratchCol scratchLN
  have hcl : ¬ ((z.buf.length : Int) < (p : Int)) := by push_cast; omega
  simp only [if_neg hcl]
  have ht : ((p : Int)).toNat = p := by omega
  rw [ht]

theorem tracks_position (z : Input) (p : Nat) (hT : Tracks z p) (h : p ≤ z.buf.length) :
    z.Position = z.PositionAt (p : Int) := by
  obtain ⟨h1, h2, h3, h4⟩ := hT
  rw [positionAt_eq_scratch z p h]
  unfold Input.Position
  rw [h3, h4]

theorem move_tracks (z : Input) (p n : Nat) (hT : Tracks z p) (hn : 0 < n)
    (hpn : p + n + 1 ≤ z.buf.length)
    (hsplit : (p : Int) = scratchLN z.buf p + 1 ∨
      byteAt z.buf p < 0x80 ∨ 0xBF < byteAt z.buf p) :
    Tracks (z.Move (n : Int)) (p + n) := by
  obtain ⟨hpos, hln, hline, hcol⟩ := hT
  have hnle : ¬ ((n : Int) ≤ 0) := by push_cast; omega
  have hEnd : moveEnd z (n : Int) = ((p + n : Nat) : Int) := by
    unfold moveEnd
    rw [hpos]
    have hno : ¬ ((z.buf.length : Int) - 1 < (p : Int) + (n : Int)) := by push_cast; omega
    rw [if_neg hno]
    push_cast
    ring
  have ht1 : ((p : Int)).toNat = p := by omega
  have ht2 : ((((p + n : Nat) : Int)) - (p : Int)).toNat = n := by push_cast; omega
  have hMoved : goSlice z.buf z.pos (moveEnd z (n : Int)) = (z.buf.drop p).take n := by
    rw [hEnd, hpos]
    unfold goSlice
    rw [ht1, ht2]
  have hMlen : ((z.buf.drop p).take n).length = n := by
    rw [List.length_take, List.length_drop]
    omega
  have htakeSplit : z.buf.take (p + n) = z.buf.take p ++ (z.buf.drop p).take n :=
    List.take_add z.buf p n
  have hLNapp := lastIndexByte_append (z.buf.take p) ((z.buf.drop p).take n) 10
  have htplen : (z.buf.take p).length = p := by
    rw [List.length_take]
    omega
  have hlnp1 := scratchLN_ge z.buf p
  have hlnp2 := (scratchLN_lt z.buf p).1
  by_cases hNL : 0 < countByte ((z.buf.drop p).take n) 10
  · -- at least one newline in the moved bytes
    have hMove : z.Move (n : Int) =
        { z with
          line := z.line + (countByte ((z.buf.drop p).take n) 10 : Int),
          lastNewline := z.pos + lastIndexByte ((z.buf.drop p).take n) 10,
          col := (runeCount (goSlice z.buf
            (z.pos + lastIndexByte ((z.buf.drop p).take n) 10 + 1)
            ((p + n : Nat) : Int)) : Int) + 1,
          pos := ((p + n : Nat) : Int) } := by
      unfold Input.Move
      rw [hMoved, hEnd, if_neg hnle, if_pos hNL]
    have hjnn : 0 ≤ lastIndexByte ((z.buf.drop p).take n) 10 :=
      (lastIndexByte_nonneg_iff _ 10).mpr hNL
    have hjlt : lastIndexByte ((z.buf.drop p).take n) 10 < (n : Int) := by
      have hl := lastIndexByte_lt_length ((z.buf.drop p).take n) 10
      rw [hMlen] at hl
      exact hl
    have hLNnew : scratchLN z.buf (p + n) = (p : Int) + lastIndexByte ((z.buf.drop p).take n) 10 := by
      unfold scratchLN
      rw [htakeSplit, hLNapp, if_pos hjnn, htplen]
    have htoNat : ((p : Int) + lastIndexByte ((z.buf.drop p).take n) 10 + 1).toNat =
        p + (lastIndexByte ((z.buf.drop p).take n) 10).toNat + 1 := by omega
    have hjn1 : (lastIndexByte ((z.buf.drop p).take n) 10).toNat + 1 ≤ n := by omega
    have htake2 : z.buf.take (p + ((lastIndexByte ((z.buf.drop p).take n) 10).toNat + 1)) =
        z.buf.take p ++ (z.buf.drop p).take ((lastIndexByte ((z.buf.drop p).take n) 10).toNat + 1) :=
      List.take_add z.buf p _
    have htt : ((z.buf.drop p).take n).take ((lastIndexByte ((z.buf.drop p).take n) 10).toNat + 1) =
        (z.buf.drop p).take ((lastIndexByte ((z.buf.drop p).take n) 10).toNat + 1) := by
      rw [List.take_take]
      congr 1
      omega
    have hcnt2 : countByte (((z.buf.drop p).take n).take
        ((lastIndexByte ((z.buf.drop p).take n) 10 + 1).toNat)) 10 =
        countByte ((z.buf.drop p).take n) 10 :=
      countByte_take_lastIndexByte ((z.buf.drop p).take n) 10
    have hjt : (lastIndexByte ((z.buf.drop p).take n) 10 + 1).toNat =
        (lastIndexByte ((z.buf.drop p).take n) 10).toNat + 1 := by omega
    have hcntp : countByte (z.buf.take p) 10 =
        countByte (z.buf.take (scratchLN z.buf p + 1).toNat) 10 := by
      have hc := countByte_take_lastIndexByte (z.buf.take p) 10
      have htk : (z.buf.take p).take ((scratchLN z.buf p + 1).toNat) =
          z.buf.take ((scratchLN z.buf p + 1).toNat) := by
        rw [List.take_take]
        congr 1
        omega
      rw [← htk]
      exact hc.symm
    refine ⟨?_, ?_, ?_, ?_⟩
    · rw [hMove]
    · rw [hMove]
      show z.pos + lastIndexByte ((z.buf.drop p).take n) 10 = scratchLN z.buf (p + n)
      rw [hpos, hLNnew]
    · rw [hMove]
      show z.line + (countByte ((z.buf.drop p).take n) 10 : Int) = scratchLine z.buf (p + n)
      unfold scratchLine
      rw [hLNnew, hline]
      unfold scratchLine
      rw [htoNat]
      have : p + (lastIndexByte ((z.buf.drop p).take n) 10).toNat + 1 =
          p + ((lastIndexByte ((z.buf.drop p).take n) 10).toNat + 1) := by omega
      rw [this, htake2, countByte_append, htt.symm, ← hjt, hcnt2, hcntp]
      push_cast
      ring
    · rw [hMove]
      show (runeCount (goSlice z.buf
          (z.pos + lastIndexByte ((z.buf.drop p).take n) 10 + 1)
          ((p + n : Nat) : Int)) : Int) + 1 = scratchCol z.buf (p + n)
      unfold scratchCol
      rw [hLNnew, hpos]
  · -- no newline in the moved bytes
    have hMove : z.Move (n : Int) =
        { z with
          col := z.col + (runeCount ((z.buf.drop p).take n) : Int),
          pos := ((p + n : Nat) : Int) } := by
      unfold Input.Move
      rw [hMoved, hEnd, if_neg hnle, if_neg hNL]
    have hcnt0 : countByte ((z.buf.drop p).take n) 10 = 0 := by omega
    have hjneg : lastIndexByte ((z.buf.drop p).take n) 10 < 0 :=
      (lastIndexByte_neg_iff _ 10).mpr hcnt0
    have hLNnew : scratchLN z.buf (p + n) = scratchLN z.buf p := by
      unfold scratchLN
      rw [htakeSplit, hLNapp, if_neg (by omega)]
    refine ⟨?_, ?_, ?_, ?_⟩
    · rw [hMove]
    · rw [hMove]
      show z.lastNewline = scratchLN z.buf (p + n)
      rw [hLNnew, hln]
    · rw [hMove]
      show z.line = scratchLine z.buf (p + n)
      unfold scratchLine
      rw [hLNnew, hline]
      unfold scratchLine
      rfl
    · rw [hMove]
      show z.col + (runeCount ((z.buf.drop p).take n) : Int) = scratchCol z.buf (p + n)
      unfold scratchCol
      rw [hLNnew, hcol]
      unfold scratchCol
      -- abbreviations for the region after the last newline
      have hk1 : (scratchLN z.buf p + 1).toNat ≤ p := by omega
      have hkInt : ((scratchLN z.buf p + 1).toNat : Int) = scratchLN z.buf p + 1 := by omega
      have hAi : (((p + n : Nat) : Int) - (scratchLN z.buf p + 1)).toNat =
          p + n - (scratchLN z.buf p + 1).toNat := by omega
      have hpi : (((p : Nat) : Int) - (scratchLN z.buf p + 1)).toNat =
          p - (scratchLN z.buf p + 1).toNat := by omega
      have hA : goSlice z.buf (scratchLN z.buf p + 1) ((p + n : Nat) : Int) =
          (z.buf.drop (scratchLN z.buf p + 1).toNat).take (p + n - (scratchLN z.buf p + 1).toNat) := by
        unfold goSlice
        rw [hAi]
      have hP : goSlice z.buf (scratchLN z.buf p + 1) ((p : Nat) : Int) =
          (z.buf.drop (scratchLN z.buf p + 1).toNat).take (p - (scratchLN z.buf p + 1).toNat) := by
        unfold goSlice
        rw [hpi]
      rw [hA, hP]
      -- boundary additivity on the region
      have htakeA : ((z.buf.drop (scratchLN z.buf p + 1).toNat).take
            (p + n - (scratchLN z.buf p + 1).toNat)).take (p - (scratchLN z.buf p + 1).toNat) =
          (z.buf.drop (scratchLN z.buf p + 1).toNat).take (p - (scratchLN z.buf p + 1).toNat) := by
        rw [List.take_take]
        congr 1
        omega
      have hdropA : ((z.buf.drop (scratchLN z.buf p + 1).toNat).take
            (p + n - (scratchLN z.buf p + 1).toNat)).drop (p - (scratchLN z.buf p + 1).toNat) =
          (z.buf.drop p).take n := by
        rw [List.drop_take, List.drop_drop]
        have he1 : (scratchLN z.buf p + 1).toNat + (p - (scratchLN z.buf p + 1).toNat) = p := by
          omega
        have he2 : p + n - (scratchLN z.buf p + 1).toNat -
            (p - (scratchLN z.buf p + 1).toNat) = n := by omega
        rw [he1, he2]
      have hAlen : ((z.buf.drop (scratchLN z.buf p + 1).toNat).take
          (p + n - (scratchLN z.buf p + 1).toNat)).length =
          p + n - (scratchLN z.buf p + 1).toNat := by
        rw [List.length_take, List.length_drop]
        omega
      have hbd : IsBoundary ((z.buf.drop (scratchLN z.buf p + 1).toNat).take
          (p + n - (scratchLN z.buf p + 1).toNat)) (p - (scratchLN z.buf p + 1).toNat) := by
        rcases hsplit with hs1 | hs2
        · have : p - (scratchLN z.buf p + 1).toNat = 0 := by omega
          rw [this]
          exact IsBoundary.zero _
        · apply notCont_isBoundary
          · rw [hAlen]
            omega
          · have hby : byteAt ((z.buf.drop (scratchLN z.buf p + 1).toNat).take
                (p + n - (scratchLN z.buf p + 1).toNat)) (p - (scratchLN z.buf p + 1).toNat) =
                byteAt z.buf p := by
              rw [byteAt_take _ _ _ (by omega), byteAt_drop]
              congr 1
              omega
            rw [hby]
            exact hs2
      have hadd := hbd.additive
      rw [htakeA, hdropA] at hadd
      rw [hadd]
      push_cast
      ring

theorem move_buf (z : Input) (n : Int) : (z.Move n).buf = z.buf := by
  unfold Input.Move
  split_ifs <;> rfl

/-- A sequence of `Move` calls applied in order. -/
def movesFold (z : Input) (ns : List Nat) : Input :=
  ns.foldl (fun w k => w.Move (k : Int)) z

theorem movesFold_buf (ns : List Nat) : ∀ z : Input, (movesFold z ns).buf = z.buf := by
  induction ns with
  | nil => intro z; rfl
  | cons k ks ih =>
    intro z
    have hstep : movesFold z (k :: ks) = movesFold (z.Move (k : Int)) ks := rfl
    rw [hstep, ih, move_buf]

theorem positionAt_congr (z1 z2 : Input) (h : z1.buf = z2.buf) (q : Int) :
    z1.PositionAt q = z2.PositionAt q := by
  unfold Input.PositionAt
  rw [h]

theorem positionAt_clamped (z : Input) (off : Int) (h : (z.buf.length : Int) ≤ off) :
    z.PositionAt off = z.PositionAt (z.buf.length : Int) := by
  unfold Input.PositionAt
  have h1 : (if (z.buf.length : Int) < off then (z.buf.length : Int) else off) =
      (z.buf.length : Int) := by
    split_ifs <;> omega
  have h2 : (if (z.buf.length : Int) < (z.buf.length : Int) then (z.buf.length : Int)
      else (z.buf.length : Int)) = (z.buf.length : Int) := by
    split_ifs <;> rfl
  rw [h1, h2]

theorem runeCount_append_low (m : List Nat) (c : Nat) (hc : c < 0x80) :
    runeCount (m ++ [c]) = runeCount m + 1 := by
  have hbv : byteAt (m ++ [c]) m.length = c := by
    have h0 := byteAt_append_right m [c] 0
    simpa using h0
  have hb : IsBoundary (m ++ [c]) m.length :=
    notCont_isBoundary m.length (m ++ [c]) (by simp) (by rw [hbv]; omega)
  have hadd := hb.additive
  rw [List.take_left, List.drop_left] at hadd
  rw [hadd]
  have h1 : runeCount [c] = 1 := by
    show runeCountFuel 1 [c] = 1
    simp [runeCountFuel]
  rw [h1]

theorem movesFold_tracks (b : List Nat) : ∀ (ns : List Nat) (z : Input) (p : Nat),
    z.buf = b ++ [0] → Tracks z p → p + ns.sum ≤ b.length →
    (∀ k ∈ ns, 0 < k) →
    (ns = [] ∨ (p : Int) = scratchLN z.buf p + 1 ∨
      byteAt b p < 0x80 ∨ 0xBF < byteAt b p) →
    (∀ i : Nat, 0 < i → i < ns.length →
      byteAt b (p + (ns.take i).sum) < 0x80 ∨ 0xBF < byteAt b (p + (ns.take i).sum)) →
    Tracks (movesFold z ns) (p + ns.sum) := by
  intro ns
  induction ns with
  | nil =>
    intro z p hbuf hT hsum hpos hsplit hmid
    simpa [movesFold] using hT
  | cons k ks ih =>
    intro z p hbuf hT hsum hpos hsplit hmid
    have hk : 0 < k := hpos k (by simp)
    have hks : ∀ x ∈ ks, 0 < x := fun x hx => hpos x (by simp [hx])
    have hsumc : (k :: ks).sum = k + ks.sum := by simp
    have hsum' : p + k + ks.sum ≤ b.length := by
      rw [hsumc] at hsum
      omega
    have hplt : p < b.length := by omega
    have hT' : Tracks (z.Move (k : Int)) (p + k) := by
      apply move_tracks z p k hT hk
      · rw [hbuf]
        simp only [List.length_append, List.length_cons, List.length_nil]
        omega
      · rcases hsplit with h | h
        · simp at h
        · rcases h with h | h
          · exact Or.inl h
          · right
            rw [hbuf, byteAt_append_left b [0] p hplt]
            exact h
    have hbuf' : (z.Move (k : Int)).buf = b ++ [0] := by
      rw [move_buf, hbuf]
    have hmid' : ∀ i : Nat, 0 < i → i < ks.length →
        byteAt b (p + k + (ks.take i).sum) < 0x80 ∨
          0xBF < byteAt b (p + k + (ks.take i).sum) := by
      intro i h1 h2
      have hh := hmid (i + 1) (by omega) (by simp only [List.length_cons]; omega)
      have hts : ((k :: ks).take (i + 1)).sum = k + (ks.take i).sum := by
        simp [List.take_succ_cons]
      rw [hts] at hh
      have harr : p + (k + (ks.take i).sum) = p + k + (ks.take i).sum := by omega
      rw [harr] at hh
      exact hh
    have hsplit' : ks = [] ∨ ((p + k : Nat) : Int) = scratchLN (z.Move (k : Int)).buf (p + k) + 1 ∨
        byteAt b (p + k) < 0x80 ∨ 0xBF < byteAt b (p + k) := by
      cases ks with
      | nil => exact Or.inl rfl
      | cons k2 ks2 =>
        right
        right
        have hh := hmid 1 (by omega) (by simp only [List.length_cons]; omega)
        have hts : ((k :: k2 :: ks2).take 1).sum = k := by simp
        rw [hts] at hh
        exact hh
    have hrec := ih (z.Move (k : Int)) (p + k) hbuf' hT' (by omega) hks hsplit' hmid'
    have hfold : movesFold z (k :: ks) = movesFold (z.Move (k : Int)) ks := rfl
    rw [hfold, hsumc]
    have harr2 : p + (k + ks.sum) = p + k + ks.sum := by omega
    rw [harr2]
    exact hrec

/-! The claims. -/

/-- C10: for every state and every mark value, `Rewind(mark)` sets `pos`
to exactly `start + mark` with no clamping and changes nothing else;
`Position()` afterwards still reports the cached line/col from before
the rewind. -/
theorem C10_rewind_frame (z : Input) (m : Int) :
    (z.Rewind m).pos = z.start + m ∧ (z.Rewind m).start = z.start ∧
    (z.Rewind m).line = z.line ∧ (z.Rewind m).col = z.col ∧
    (z.Rewind m).lastNewline = z.lastNewline ∧ (z.Rewind m).Position = z.Position :=
  ⟨rfl, rfl, rfl, rfl, rfl, rfl⟩

/-- C6: `Move(n)` with `n ≤ 0` is a complete no-op; with `n > 0` it sets
`pos` to `min(pos + n, L)`, never exceeding the logical length
`L = len(buf) - 1`, and never changes `start`. -/
theorem C6_move_clamp_frame (z : Input) (n : Int) :
    (n ≤ 0 → z.Move n = z) ∧
    (0 < n → (z.Move n).pos = min (z.pos + n) ((z.buf.length : Int) - 1) ∧
      (z.Move n).pos ≤ (z.buf.length : Int) - 1 ∧ (z.Move n).start = z.start) := by
  constructor
  · intro h
    unfold Input.Move
    rw [if_pos h]
  · intro h
    have hnle : ¬ (n ≤ 0) := by omega
    have hposEq : (z.Move n).pos = moveEnd z n := by
      unfold Input.Move
      rw [if_neg hnle]
      split_ifs <;> rfl
    have hstart : (z.Move n).start = z.start := by
      unfold Input.Move
      rw [if_neg hnle]
      split_ifs <;> rfl
    have hend : moveEnd z n = min (z.pos + n) ((z.buf.length : Int) - 1) := by
      unfold moveEnd
      split_ifs <;> omega
    refine ⟨hposEq.trans hend, ?_, hstart⟩
    rw [hposEq, hend]
    omega

/-- C6 witness: a negative move is a no-op and a clamped forward move
lands on the logical length, with `start` untouched. -/
theorem C6_witness :
    ((newInputBytes [97]).Move (-1) = newInputBytes [97]) ∧
    ((newInputBytes [97]).Move 5).pos = 1 ∧
    ((newInputBytes [97]).Move 5).start = (newInputBytes [97]).start := by
  refine ⟨(C6_move_clamp_frame (newInputBytes [97]) (-1)).1 (by decide), ?_, ?_⟩
  · have h := (C6_move_clamp_frame (newInputBytes [97]) 5).2 (by decide)
    rw [h.1]
    decide
  · exact ((C6_move_clamp_frame (newInputBytes [97]) 5).2 (by decide)).2.2

/-- C9: after a failed load the recorded error is reported by `PeekErr`
at every offset and from every position, and the logical buffer is
empty; without a load error `PeekErr(off)` is EOF exactly when
`pos + off` reaches the logical length and nothing otherwise; `Err()` is
always `PeekErr(0)`. -/
theorem C9_error_taxonomy (z : Input) (e : Nat) (off q : Int) :
    ({ errInput e with pos := q } : Input).PeekErr off = some (GoErr.load e) ∧
    (errInput e).Len = 0 ∧
    (z.err = none → z.PeekErr off =
      if z.Len ≤ z.pos + off then some GoErr.eof else none) ∧
    z.Err = z.PeekErr 0 := by
  refine ⟨rfl, by norm_num [errInput, Input.Len], ?_, rfl⟩
  intro h
  unfold Input.PeekErr
  rw [h]
  rfl

/-- C9 witness: the load error is reported from an arbitrary position,
the degraded buffer is empty, and an EOF-side instance evaluates. -/
theorem C9_witness :
    ({ errInput 7 with pos := (5 : Int) } : Input).PeekErr 3 = some (GoErr.load 7) ∧
    (errInput 7).Len = 0 ∧
    (newInputBytes [65]).PeekErr 3 =
      (if (newInputBytes [65]).Len ≤ (newInputBytes [65]).pos + 3 then some GoErr.eof
        else none) := by
  obtain ⟨h1, h2, h3, h4⟩ := C9_error_taxonomy (newInputBytes [65]) 7 3 5
  exact ⟨h1, h2, h3 rfl⟩

/-- C3: for every constructed buffer of logical length `L` and every
position with `pos + offset = L`, `Peek` returns the sentinel byte 0 and
the access lands inside the physical buffer, whose length is `L + 1`
with a zero byte at index `L`. -/
theorem C3_sentinel_safety (b : List Nat) (p off : Nat) (h : p + off = b.length) :
    ({ newInputBytes b with pos := (p : Int) } : Input).Peek (off : Int) = 0 ∧
    ((p : Int) + (off : Int)).toNat < (newInputBytes b).buf.length ∧
    (newInputBytes b).buf.length = b.length + 1 ∧
    (newInputBytes b).Len = (b.length : Int) ∧
    byteAt (newInputBytes b).buf b.length = 0 := by
  have hsent : byteAt (b ++ [0]) b.length = 0 := by
    have h0 := byteAt_append_right b [0] 0
    simpa using h0
  refine ⟨?_, ?_, ?_, ?_, hsent⟩
  · show byteAt (b ++ [0]) ((p : Int) + (off : Int)).toNat = 0
    have ht : ((p : Int) + (off : Int)).toNat = b.length := by omega
    rw [ht]
    exact hsent
  · show ((p : Int) + (off : Int)).toNat < (b ++ [0]).length
    simp only [List.length_append, List.length_cons, List.length_nil]
    omega
  · show (b ++ [0]).length = b.length + 1
    simp only [List.length_append, List.length_cons, List.length_nil]
  · show ((b ++ [0]).length : Int) - 1 = (b.length : Int)
    simp only [List.length_append, List.length_cons, List.length_nil]
    push_cast
    omega

/-- C3 witness: a concrete sentinel peek at the boundary. -/
theorem C3_witness :
    ({ newInputBytes [65, 10] with pos := ((1 : Nat) : Int) } : Input).Peek ((1 : Nat) : Int) = 0 ∧
    (((1 : Nat) : Int) + ((1 : Nat) : Int)).toNat < (newInputBytes [65, 10]).buf.length ∧
    (newInputBytes [65, 10]).buf.length = [65, 10].length + 1 ∧
    (newInputBytes [65, 10]).Len = ([65, 10].length : Int) ∧
    byteAt (newInputBytes [65, 10]).buf [65, 10].length = 0 :=
  C3_sentinel_safety [65, 10] 1 1 (by decide)

/-- C4: the claim asserts that `PeekRune(offset)` never reads an index
greater than `L`; the code violates this because the remaining-length
guards use `z.pos` instead of `z.pos + offset`.  On the buffer
`[0x41, 0x41, 0xE0]` (logical length 3, physical length 4) with `pos = 0`
and `offset = 2`, `PeekRune` takes the three-byte branch and reads
physical index 4, one past the physical buffer. -/
theorem C4_peekRune_reads_out_of_bounds :
    peekRuneReadIndices (newInputBytes [65, 65, 224]) 2 = [2, 3, 4] ∧
    (newInputBytes [65, 65, 224]).buf.length = 4 ∧
    (newInputBytes [65, 65, 224]).Len = 3 ∧
    (0 : Int) + 2 ≤ (newInputBytes [65, 65, 224]).Len := by
  refine ⟨by decide, by decide, by decide, by decide⟩

/-- C1: for every constructed buffer and every offset `0 ≤ o < L`, a
fresh `Reset()` followed by a single `Move(o)` makes `Position()` agree
with `PositionAt(o)`. -/
theorem C1_move_positionAt_agree (b : List Nat) (o : Nat) (ho : o < b.length) :
    (((newInputBytes b).Reset).Move ((o : Nat) : Int)).Position =
      (newInputBytes b).PositionAt ((o : Nat) : Int) := by
  have hReset : (newInputBytes b).Reset = newInputBytes b := rfl
  rw [hReset]
  rcases Nat.eq_zero_or_pos o with h0 | hpos
  · subst h0
    have hMove : (newInputBytes b).Move (((0 : Nat) : Nat) : Int) = newInputBytes b := by
      unfold Input.Move
      rw [if_pos (by norm_num)]
    rw [hMove]
    exact tracks_position _ 0 (tracks_newInput b)
      (by simp [newInputBytes])
  · have hT := move_tracks (newInputBytes b) 0 o (tracks_newInput b) hpos
      (by
        show 0 + o + 1 ≤ (b ++ [0]).length
        simp only [List.length_append, List.length_cons, List.length_nil]
        omega)
      (Or.inl (by
        show ((0 : Nat) : Int) = scratchLN (newInputBytes b).buf 0 + 1
        have hs : scratchLN (newInputBytes b).buf 0 = -1 := by
          simp [scratchLN, lastIndexByte]
        rw [hs]
        norm_num))
    have hbuf2 : ((newInputBytes b).Move ((o : Nat) : Int)).buf = b ++ [0] :=
      move_buf _ _
    have hp := tracks_position ((newInputBytes b).Move ((o : Nat) : Int)) (0 + o)
      (by
        have hz : (0 : Nat) + o = 0 + o := rfl
        exact hT)
      (by
        rw [hbuf2]
        simp only [List.length_append, List.length_cons, List.length_nil]
        omega)
    rw [hp]
    have hzo : (0 : Nat) + o = o := by omega
    rw [hzo]
    exact positionAt_congr _ _ hbuf2 _

/-- C1 witness: a concrete instance crossing a newline. -/
theorem C1_witness :
    (((newInputBytes [97, 10, 98]).Reset).Move (((2 : Nat)) : Int)).Position =
      (newInputBytes [97, 10, 98]).PositionAt (((2 : Nat)) : Int) :=
  C1_move_positionAt_agree [97, 10, 98] 2 (by decide)

/-- C2 counterexample: the claim includes splits in the middle of a
multi-byte rune, but splitting the two-byte rune 0xCE 0xB1 into two
`Move(1)` calls makes the incremental column count the two halves as two
code points, while `PositionAt(2)` counts one: (1,3) versus (1,2). -/
theorem C2_counterexample :
    (∀ k ∈ [1, 1], 0 < k) ∧ ([1, 1] : List Nat).sum ≤ [206, 177].length ∧
    (movesFold ((newInputBytes [206, 177]).Reset) [1, 1]).Position ≠
      (newInputBytes [206, 177]).PositionAt ((([1, 1] : List Nat).sum : Nat) : Int) := by
  refine ⟨by decide, by decide, by decide⟩

/-- C2 (amended): the incremental tracking agrees with the from-scratch
scan for every split of the forward motion into positive `Move` calls
whose intermediate stopping offsets do not land inside a multi-byte
rune, i.e. the byte at every intermediate cumulative offset is not a
UTF-8 continuation byte (0x80 to 0xBF).  The original claim allowed
splits in the middle of a multi-byte rune; those fail (see the
counterexample). -/
theorem C2_amended_split_agreement (b : List Nat) (ns : List Nat)
    (hpos : ∀ k ∈ ns, 0 < k)
    (hsum : ns.sum ≤ b.length)
    (hmid : ∀ i : Nat, 0 < i → i < ns.length →
      byteAt b ((ns.take i).sum) < 0x80 ∨ 0xBF < byteAt b ((ns.take i).sum)) :
    (movesFold ((newInputBytes b).Reset) ns).Position =
      (newInputBytes b).PositionAt ((ns.sum : Nat) : Int) := by
  have hReset : (newInputBytes b).Reset = newInputBytes b := rfl
  rw [hReset]
  have hsplit0 : ns = [] ∨ ((0 : Nat) : Int) = scratchLN (newInputBytes b).buf 0 + 1 ∨
      byteAt b 0 < 0x80 ∨ 0xBF < byteAt b 0 := by
    right
    left
    have hs : scratchLN (newInputBytes b).buf 0 = -1 := by
      simp [scratchLN, lastIndexByte]
    rw [hs]
    norm_num
  have hmid0 : ∀ i : Nat, 0 < i → i < ns.length →
      byteAt b (0 + (ns.take i).sum) < 0x80 ∨ 0xBF < byteAt b (0 + (ns.take i).sum) := by
    intro i h1 h2
    have hz : 0 + (ns.take i).sum = (ns.take i).sum := by omega
    rw [hz]
    exact hmid i h1 h2
  have hT := movesFold_tracks b ns (newInputBytes b) 0 rfl (tracks_newInput b)
    (by omega) hpos hsplit0 hmid0
  have hbuf2 : (movesFold (newInputBytes b) ns).buf = b ++ [0] := movesFold_buf ns _
  have hp := tracks_position (movesFold (newInputBytes b) ns) (0 + ns.sum) hT
    (by
      rw [hbuf2]
      simp only [List.length_append, List.length_cons, List.length_nil]
      omega)
  rw [hp]
  have hzo : (0 : Nat) + ns.sum = ns.sum := by omega
  rw [hzo]
  exact positionAt_congr _ _ hbuf2 _

/-- C2 witness: splitting at a newline and at a rune lead byte, with the
two-byte runes moved whole, agrees with the from-scratch scan. -/
theorem C2_witness :
    (movesFold ((newInputBytes [206, 177, 10, 206, 178]).Reset) [2, 1, 2]).Position =
      (newInputBytes [206, 177, 10, 206, 178]).PositionAt
        ((([2, 1, 2] : List Nat).sum : Nat) : Int) :=
  C2_amended_split_agreement [206, 177, 10, 206, 178] [2, 1, 2] (by decide) (by decide)
    (by
      intro i h1 h2
      simp only [List.length_cons, List.length_nil] at h2
      interval_cases i <;> decide)

/-- C5 counterexample: the claim says `PositionAt(offset)` for
`offset > L` equals `PositionAt(L)`, but the code clamps the offset to
the physical length `L + 1`, so the sentinel byte is counted as one more
code point: on the empty buffer `PositionAt(1) = (1,2)` while
`PositionAt(0) = (1,1)`. -/
theorem C5_counterexample :
    (newInputBytes []).PositionAt 1 ≠ (newInputBytes []).PositionAt 0 ∧
    (newInputBytes []).Len = 0 ∧
    (newInputBytes []).PositionAt 1 = (1, 2) ∧
    (newInputBytes []).PositionAt 0 = (1, 1) := by
  refine ⟨by decide, by decide, by decide, by decide⟩

/-- C5 (amended): for every offset strictly greater than `L`,
`PositionAt(offset)` returns the same pair as `PositionAt(L + 1)` (the
offset is clamped to the physical length), whose line equals the line of
`PositionAt(L)` and whose column is one greater than the column of
`PositionAt(L)`, because the NULL sentinel is scanned as one extra code
point. -/
theorem C5_amended_clamp_to_physical (b : List Nat) (off : Int)
    (hoff : (b.length : Int) < off) :
    (newInputBytes b).PositionAt off =
      (newInputBytes b).PositionAt ((b.length : Int) + 1) ∧
    ((newInputBytes b).PositionAt ((b.length : Int) + 1)).1 =
      ((newInputBytes b).PositionAt (b.length : Int)).1 ∧
    ((newInputBytes b).PositionAt ((b.length : Int) + 1)).2 =
      ((newInputBytes b).PositionAt (b.length : Int)).2 + 1 := by
  have hbufshow : (newInputBytes b).buf = b ++ [0] := rfl
  have hblen : (newInputBytes b).buf.length = b.length + 1 := by
    rw [hbufshow]
    simp only [List.length_append, List.length_cons, List.length_nil]
  have hcast : ((newInputBytes b).buf.length : Int) = (b.length : Int) + 1 := by
    rw [hblen]
    push_cast
    ring
  have hcast2 : (((b.length + 1 : Nat)) : Int) = (b.length : Int) + 1 := by
    push_cast
    ring
  have hs1 : (newInputBytes b).PositionAt (((b.length + 1 : Nat)) : Int) =
      (scratchLine (newInputBytes b).buf (b.length + 1),
        scratchCol (newInputBytes b).buf (b.length + 1)) :=
    positionAt_eq_scratch _ (b.length + 1) (by rw [hblen])
  have hs0 : (newInputBytes b).PositionAt (((b.length : Nat)) : Int) =
      (scratchLine (newInputBytes b).buf b.length,
        scratchCol (newInputBytes b).buf b.length) :=
    positionAt_eq_scratch _ b.length (by rw [hblen]; omega)
  have hLN10 : lastIndexByte [0] 10 = -1 := by decide
  have htakeAll : (b ++ [0]).take (b.length + 1) = b ++ [0] :=
    List.take_of_length_le (by simp)
  have htakeN : (b ++ [0]).take b.length = b := List.take_left b [0]
  have hLNeq : scratchLN (newInputBytes b).buf (b.length + 1) =
      scratchLN (newInputBytes b).buf b.length := by
    unfold scratchLN
    rw [hbufshow, htakeAll, htakeN, lastIndexByte_append, hLN10]
    norm_num
  have hLNval : scratchLN (newInputBytes b).buf b.length = lastIndexByte b 10 := by
    unfold scratchLN
    rw [hbufshow, htakeN]
  have hlv1 := lastIndexByte_lt_length b 10
  have hlv2 := lastIndexByte_ge b 10
  have hkle : (lastIndexByte b 10 + 1).toNat ≤ b.length := by omega
  refine ⟨?_, ?_, ?_⟩
  · have h1 := positionAt_clamped (newInputBytes b) off (by rw [hcast]; omega)
    rw [h1, hcast]
  · rw [← hcast2, hs1, hs0]
    show scratchLine (newInputBytes b).buf (b.length + 1) =
      scratchLine (newInputBytes b).buf b.length
    unfold scratchLine
    rw [hLNeq]
  · rw [← hcast2, hs1, hs0]
    show scratchCol (newInputBytes b).buf (b.length + 1) =
      scratchCol (newInputBytes b).buf b.length + 1
    unfold scratchCol
    rw [hLNeq, hLNval, hbufshow]
    have hdropApp : (b ++ [0]).drop (lastIndexByte b 10 + 1).toNat =
        b.drop (lastIndexByte b 10 + 1).toNat ++ [0] :=
      List.drop_append_of_le_length hkle
    have hg1 : goSlice (b ++ [0]) (lastIndexByte b 10 + 1) (((b.length + 1 : Nat)) : Int) =
        b.drop (lastIndexByte b 10 + 1).toNat ++ [0] := by
      unfold goSlice
      rw [hdropApp]
      apply List.take_of_length_le
      simp only [List.length_append, List.length_drop, List.length_cons, List.length_nil]
      omega
    have hg0 : goSlice (b ++ [0]) (lastIndexByte b 10 + 1) (((b.length : Nat)) : Int) =
        b.drop (lastIndexByte b 10 + 1).toNat := by
      unfold goSlice
      rw [hdropApp]
      have hlen2 : ((((b.length : Nat)) : Int) - (lastIndexByte b 10 + 1)).toNat =
          (b.drop (lastIndexByte b 10 + 1).toNat).length := by
        rw [List.length_drop]
        omega
      rw [hlen2, List.take_left]
    rw [hg1, hg0, runeCount_append_low _ 0 (by norm_num)]
    push_cast
    ring

/-- C5 witness: a concrete buffer and an offset far past the end. -/
theorem C5_witness :
    (newInputBytes [97, 10]).PositionAt 50 =
      (newInputBytes [97, 10]).PositionAt (([97, 10].length : Int) + 1) ∧
    ((newInputBytes [97, 10]).PositionAt (([97, 10].length : Int) + 1)).1 =
      ((newInputBytes [97, 10]).PositionAt ([97, 10].length : Int)).1 ∧
    ((newInputBytes [97, 10]).PositionAt (([97, 10].length : Int) + 1)).2 =
      ((newInputBytes [97, 10]).PositionAt ([97, 10].length : Int)).2 + 1 :=
  C5_amended_clamp_to_physical [97, 10] 50 (by decide)

/-- C8: only the LF byte separates lines, for both the incremental
tracking and the from-scratch scan: on the bytes of the string
a CR LF b LF CR c LF LF, the positions after each single-byte move, and
`PositionAt` at each offset, trace exactly the list required by the
claim (CR never changes the line or resets the column). -/
theorem C8_only_lf_separates_lines :
    ((List.range 10).map (fun k =>
      (movesFold ((newInputBytes [97, 13, 10, 98, 10, 13, 99, 10, 10]).Reset)
        (List.replicate k 1)).Position) =
      [(1, 1), (1, 2), (1, 3), (2, 1), (2, 2), (3, 1), (3, 2), (3, 3), (4, 1), (5, 1)]) ∧
    ((List.range 10).map (fun k =>
      (newInputBytes [97, 13, 10, 98, 10, 13, 99, 10, 10]).PositionAt ((k : Nat) : Int)) =
      [(1, 1), (1, 2), (1, 3), (2, 1), (2, 2), (3, 1), (3, 2), (3, 3), (4, 1), (5, 1)]) := by
  refine ⟨by decide, by decide⟩

/-- Decoding formula of claim C7, written from the words of the claim:
with `c` the byte at `pos`, `r = L - pos` the bytes remaining before the
sentinel, and `b1`, `b2`, `b3` the following physical bytes, the claim
gives the branch conditions on `c` and `r` and the mask-and-shift
composition of the codepoint. -/
def peekRuneSpec (b : List Nat) (p : Nat) : Nat × Nat :=
  if byteAt (b ++ [0]) p < 0xC0 ∨ b.length - p < 2 then
    (byteAt (b ++ [0]) p, 1)
  else if byteAt (b ++ [0]) p < 0xE0 ∨ b.length - p < 3 then
    (((byteAt (b ++ [0]) p &&& 0x1F) <<< 6) ||| (byteAt (b ++ [0]) (p + 1) &&& 0x3F), 2)
  else if byteAt (b ++ [0]) p < 0xF0 ∨ b.length - p < 4 then
    (((byteAt (b ++ [0]) p &&& 0x0F) <<< 12) |||
      ((byteAt (b ++ [0]) (p + 1) &&& 0x3F) <<< 6) |||
      (byteAt (b ++ [0]) (p + 2) &&& 0x3F), 3)
  else
    (((byteAt (b ++ [0]) p &&& 0x07) <<< 18) |||
      ((byteAt (b ++ [0]) (p + 1) &&& 0x3F) <<< 12) |||
      ((byteAt (b ++ [0]) (p + 2) &&& 0x3F) <<< 6) |||
      (byteAt (b ++ [0]) (p + 3) &&& 0x3F), 4)

/-- C7: on a constructed buffer with cursor `pos ≤ L`, `PeekRune(0)`
computes exactly the decoding formula of the claim, with no validation
of continuation bytes and the remaining-length fallbacks on `r = L - pos`. -/
theorem C7_peekRune_formula (b : List Nat) (p : Nat) (hp : p ≤ b.length) :
    ({ newInputBytes b with pos := (p : Int) } : Input).PeekRune 0 = peekRuneSpec b p := by
  have hP0 : ({ newInputBytes b with pos := (p : Int) } : Input).Peek 0 = byteAt (b ++ [0]) p := by
    unfold Input.Peek
    show byteAt (b ++ [0]) ((p : Int) + 0).toNat = byteAt (b ++ [0]) p
    have ht : ((p : Int) + 0).toNat = p := by omega
    rw [ht]
  have hP1 : ({ newInputBytes b with pos := (p : Int) } : Input).Peek (0 + 1) =
      byteAt (b ++ [0]) (p + 1) := by
    unfold Input.Peek
    show byteAt (b ++ [0]) ((p : Int) + (0 + 1)).toNat = byteAt (b ++ [0]) (p + 1)
    have ht : ((p : Int) + (0 + 1)).toNat = p + 1 := by omega
    rw [ht]
  have hP2 : ({ newInputBytes b with pos := (p : Int) } : Input).Peek (0 + 2) =
      byteAt (b ++ [0]) (p + 2) := by
    unfold Input.Peek
    show byteAt (b ++ [0]) ((p : Int) + (0 + 2)).toNat = byteAt (b ++ [0]) (p + 2)
    have ht : ((p : Int) + (0 + 2)).toNat = p + 2 := by omega
    rw [ht]
  have hP3 : ({ newInputBytes b with pos := (p : Int) } : Input).Peek (0 + 3) =
      byteAt (b ++ [0]) (p + 3) := by
    unfold Input.Peek
    show byteAt (b ++ [0]) ((p : Int) + (0 + 3)).toNat = byteAt (b ++ [0]) (p + 3)
    have ht : ((p : Int) + (0 + 3)).toNat = p + 3 := by omega
    rw [ht]
  have hlen : (({ newInputBytes b with pos := (p : Int) } : Input).buf.length : Int) - 1 -
      ({ newInputBytes b with pos := (p : Int) } : Input).pos = ((b.length - p : Nat) : Int) := by
    show (((b ++ [0]).length : Int)) - 1 - (p : Int) = ((b.length - p : Nat) : Int)
    have hl : (b ++ [0]).length = b.length + 1 := by
      simp only [List.length_append, List.length_cons, List.length_nil]
    rw [hl]
    omega
  unfold Input.PeekRune peekRuneSpec
  rw [hP0, hP1, hP2, hP3, hlen]
  simp only [show ((((b.length - p : Nat)) : Int) < 2) ↔ (b.length - p < 2) from by omega,
    show ((((b.length - p : Nat)) : Int) < 3) ↔ (b.length - p < 3) from by omega,
    show ((((b.length - p : Nat)) : Int) < 4) ↔ (b.length - p < 4) from by omega]

/-- C7 witness: the two-byte rune alpha decodes at the head of the
buffer to codepoint 945 with length 2. -/
theorem C7_witness :
    ({ newInputBytes [206, 177] with pos := ((0 : Nat) : Int) } : Input).PeekRune 0 =
      peekRuneSpec [206, 177] 0 ∧
    peekRuneSpec [206, 177] 0 = (945, 2) :=
  ⟨C7_peekRune_formula [206, 177] 0 (by decide), by decide⟩
